import Mathlib

set_option maxRecDepth 4000

/-!
Verification development for the generic-futures rollover and back-adjustment
engine of src/quant1/src/task_2/future_generic_series.py.

The frame is modelled as a list of merged rows (price data joined with the
reference table).  Dates are coded as naturals, prices, volumes and open
interest as rationals.  pandas multi-key sort_values is a stable lexicographic
sort and is modelled by List.insertionSort with a non-strict key comparison.
A computation the source would abort with an exception (iloc on an empty
frame) is modelled by Option.
-/

/-- One merged row of the frame: one contract on one trading day, with the
reference fields already joined on.  The generic column is the slot label the
process functions fill in (empty before labelling). -/
structure Row where
  ts_code : Nat
  fut_code : String
  trade_date : Nat
  list_date : Nat
  delist_date : Nat
  close : ℚ
  vol : ℚ
  oi : ℚ
  generic : String
  deriving DecidableEq

/-- Non-strict comparison on the sort key (trade_date, delist_date) used by
the sort in calculate_rollover_dates. -/
def rowKeyLe (a b : Row) : Bool :=
  decide (a.trade_date < b.trade_date) ||
    (decide (a.trade_date = b.trade_date) && decide (a.delist_date ≤ b.delist_date))

/-- The same comparison as a proposition, for List.insertionSort. -/
def rowKeyLeP (a b : Row) : Prop := rowKeyLe a b = true

instance : DecidableRel rowKeyLeP := fun a b => instDecidableEqBool (rowKeyLe a b) true

instance : IsTotal Row rowKeyLeP := by
  refine ⟨fun a b => ?_⟩
  simp only [rowKeyLeP, rowKeyLe, Bool.or_eq_true, Bool.and_eq_true, decide_eq_true_eq]
  omega

instance : IsTrans Row rowKeyLeP := by
  refine ⟨fun a b c hab hbc => ?_⟩
  simp only [rowKeyLeP, rowKeyLe, Bool.or_eq_true, Bool.and_eq_true, decide_eq_true_eq] at *
  omega

/-- Stable sort of the frame by (trade_date, delist_date), as done first in
calculate_rollover_dates. -/
def sortRows (df : List Row) : List Row := List.insertionSort rowKeyLeP df

/-- Descending comparison on traded volume. -/
def volGe (a b : Row) : Bool := decide (b.vol ≤ a.vol)

/-- Descending volume comparison as a proposition. -/
def volGeP (a b : Row) : Prop := volGe a b = true

instance : DecidableRel volGeP := fun a b => instDecidableEqBool (volGe a b) true

/-- Sort a day group by volume, highest first (sort_values vol descending). -/
def sortVolDesc (l : List Row) : List Row := List.insertionSort volGeP l

/-- One iteration of the rollover loop of calculate_rollover_dates at a row r of
the sorted frame: from the incumbent (current_contract) it returns the updated
incumbent and an optional mark (ts_code, trade_date) on which the rollover flag
is set.  If the incumbent is absent from the rows of this trade date, the loop
rolls to the highest-volume contract of the day; otherwise it rolls only to a
contract of the day with strictly higher volume and strictly later delist date,
picking the highest-volume one. -/
def rollStep (all : List Row) (current : Nat) (r : Row) : Nat × Option (Nat × Nat) :=
  let cdc := all.filter fun x => x.trade_date == r.trade_date
  if (cdc.filter fun x => x.ts_code == current).isEmpty then
    match (sortVolDesc cdc).head? with
    | some nxt => (nxt.ts_code, some (nxt.ts_code, r.trade_date))
    | none => (current, none)
  else
    match (cdc.filter fun x => x.ts_code == current).head? with
    | none => (current, none)
    | some c =>
      let rcs := cdc.filter fun x =>
        decide (c.vol < x.vol) && decide (c.delist_date < x.delist_date)
      match (sortVolDesc rcs).head? with
      | some top => (top.ts_code, some (top.ts_code, r.trade_date))
      | none => (current, none)

/-- The rollover loop over the rows after the first one, threading the single
incumbent contract and collecting the flag marks in iteration order. -/
def rollFold (all : List Row) : Nat → List Row → List (Nat × Nat)
  | _, [] => []
  | current, r :: rest =>
    match rollStep all current r with
    | (c2, some m) => m :: rollFold all c2 rest
    | (c2, none) => rollFold all c2 rest

/-- The initial incumbent and the chronological rollover marks of
calculate_rollover_dates; none models the IndexError the source raises on an
empty frame (ts_code iloc 0 on no rows). -/
def rolloverMarks (df : List Row) : Option (Nat × List (Nat × Nat)) :=
  match sortRows df with
  | [] => none
  | r0 :: rest => some (r0.ts_code, rollFold (r0 :: rest) r0.ts_code rest)

/-- FutureData.calculate_rollover_dates: sort by (trade_date, delist_date), walk
the rows threading one incumbent contract for the whole frame, and set
rollover = 1 exactly on the rows matched by a recorded (ts_code, trade_date)
mark. -/
def calculate_rollover_dates (df : List Row) : Option (List (Row × Bool)) :=
  (rolloverMarks df).map fun cm =>
    (sortRows df).map fun r => (r, cm.2.contains (r.ts_code, r.trade_date))

/-- The realized incumbent sequence: the initial contract followed by each roll
target in order. -/
def rolloverChain (df : List Row) : List Nat :=
  match rolloverMarks df with
  | none => []
  | some cm => cm.1 :: cm.2.map Prod.fst

/-- The rollover flag column alone, in sorted row order. -/
def rolloverFlags (df : List Row) : Option (List Bool) :=
  (calculate_rollover_dates df).map fun l => l.map Prod.snd

/-- Round half to even to an integer (the rounding used by Python and numpy),
computed on the numerator and denominator: f is the floor and r the
fractional-part numerator, so the comparisons of 2 * r with the denominator
decide whether the fractional part is below, above or exactly one half. -/
def roundHE (q : ℚ) : ℤ :=
  let f := Int.fdiv q.num (q.den : ℤ)
  let r := q.num - f * (q.den : ℤ)
  if 2 * r < (q.den : ℤ) then f
  else if (q.den : ℤ) < 2 * r then f + 1
  else if f % 2 = 0 then f else f + 1

/-- Round to one decimal place, as in round(1) on the output columns. -/
def round1 (q : ℚ) : ℚ := (roundHE (q * 10) : ℚ) / 10

/-- One working row inside adjust_close: the row, its rollover flag and the
working adj_price and factor columns (the source column name for the factor is
adj_ratio; adj_price starts at close and the factor at 1). -/
structure AdjRow where
  row : Row
  roll : Bool
  adj_price : ℚ
  adj_fac : ℚ
  deriving DecidableEq

/-- The loc-mask update of adjust_close at a roll: every row of contract p gets
its adj_price multiplied by q and its factor column overwritten with q. -/
def updFac (p : Nat) (q : ℚ) (x : AdjRow) : AdjRow :=
  if x.row.ts_code = p then { x with adj_price := x.adj_price * q, adj_fac := q } else x

/-- The loop of FutureData.adjust_close over row indices: the state is the whole
working frame (the loc masks touch every row of a contract), the dictionary of
last stored closing prices and last_contract.  The fuel argument counts the
remaining iterations of range(len(df)).  The dictionary is modelled as a total
function; its default is never consulted because last_contract is always a
previously stored key. -/
def adjustGoAux (closing : Nat → ℚ) (last : Option Nat) (s : List AdjRow) (i : Nat) :
    Nat → List AdjRow
  | 0 => s
  | fuel + 1 =>
    match s[i]? with
    | none => s
    | some e =>
      let cur := e.row.ts_code
      let closing' := fun x => if x = cur then e.row.close else closing x
      match last, e.roll with
      | some p, true =>
        adjustGoAux closing' (some cur) (s.map (updFac p (e.row.close / closing' p))) (i + 1) fuel
      | _, _ => adjustGoAux closing' (some cur) s (i + 1) fuel

/-- FutureData.adjust_close: initialize adj_price with close and the factor
column with 1, run the rollover-adjustment loop over all rows, and round both
output columns to one decimal at the end. -/
def adjust_close (df : List (Row × Bool)) : List AdjRow :=
  (adjustGoAux (fun _ => 0) none (df.map fun rb => AdjRow.mk rb.1 rb.2 rb.1.close 1) 0
      df.length).map fun e =>
    { e with adj_price := round1 e.adj_price, adj_fac := round1 e.adj_fac }

/-- The adjustment events of adjust_close read off the row sequence alone: at
each flagged row having a previous row, the previous row's contract paired with
the applied factor, close of the flagged row divided by the stored close of
that contract. -/
def eventsGo (closing : Nat → ℚ) (last : Option Nat) : List (Row × Bool) → List (Nat × ℚ)
  | [] => []
  | rb :: rest =>
    let cur := rb.1.ts_code
    let closing' := fun x => if x = cur then rb.1.close else closing x
    match last, rb.2 with
    | some p, true => (p, rb.1.close / closing' p) :: eventsGo closing' (some cur) rest
    | _, _ => eventsGo closing' (some cur) rest

/-- All adjustment events of a flagged frame, in order. -/
def eventList (df : List (Row × Bool)) : List (Nat × ℚ) := eventsGo (fun _ => 0) none df

/-- The factors adjust_close applies to the rows of contract c, in order. -/
def facsOf (df : List (Row × Bool)) (c : Nat) : List ℚ :=
  ((eventList df).filter fun v => v.1 == c).map Prod.snd

/-- The cumulative product of the factors applied to contract c. -/
def prodFac (df : List (Row × Bool)) (c : Nat) : ℚ := (facsOf df c).prod

/-- The last factor applied to contract c, or 1 when none is. -/
def lastFac (df : List (Row × Bool)) (c : Nat) : ℚ := (facsOf df c).getLastD 1

/-- The rows of the day group of r inside a frame. -/
def sameDay (l : List Row) (r : Row) : List Row := l.filter fun x => x.trade_date == r.trade_date

/-- pandas groupby(trade_date) rank of delist_date with method min: one plus the
number of strictly smaller values in the day group. -/
def expiry_rank (day : List Row) (r : Row) : Nat :=
  (day.filter fun x => decide (x.delist_date < r.delist_date)).length + 1

/-- pandas groupby(trade_date) rank of oi with method max and the default
ascending order: the number of values less than or equal in the day group. -/
def active_rank (day : List Row) (r : Row) : Nat :=
  (day.filter fun x => decide (x.oi ≤ r.oi)).length

/-- The generic label map of the index family. -/
def genericIF : Nat → Option String
  | 1 => some ("IFc1")
  | 2 => some ("IFc2")
  | 3 => some ("IFc3")
  | _ => none

/-- The generic label map of the commodity family. -/
def genericP : Nat → Option String
  | 1 => some ("Pv1")
  | 2 => some ("Pv2")
  | 3 => some ("Pv3")
  | _ => none

/-- The labelling stage of FutureData.process_index_futures: keep fut_code IF,
rank each day group by delist date with method min, map ranks 1..3 to the
generic labels and keep only the labelled rows. -/
def label_index (futures : List Row) : List Row :=
  let idx := futures.filter fun r => r.fut_code == "IF"
  idx.filterMap fun r =>
    (genericIF (expiry_rank (sameDay idx r) r)).map fun g => { r with generic := g }

/-- FutureData.process_index_futures: label the IF rows and run
calculate_rollover_dates on the labelled frame. -/
def process_index_futures (futures : List Row) : Option (List (Row × Bool)) :=
  calculate_rollover_dates (label_index futures)

/-- The labelling stage of FutureData.process_commodity_futures: keep fut_code
P, rank each day group by oi with method max (ascending), map ranks 1..3 to the
generic labels and keep only the labelled rows. -/
def label_commodity (futures : List Row) : List Row :=
  let com := futures.filter fun r => r.fut_code == "P"
  com.filterMap fun r =>
    (genericP (active_rank (sameDay com r) r)).map fun g => { r with generic := g }

/-- FutureData.process_commodity_futures: label the P rows and run
calculate_rollover_dates on the labelled frame. -/
def process_commodity_futures (futures : List Row) : Option (List (Row × Bool)) :=
  calculate_rollover_dates (label_commodity futures)

/-- FutureData.merge_and_filter on already-joined rows: keep the rows inside the
listing window and sort by trade date. -/
def merge_and_filter (rows : List Row) : List Row :=
  List.insertionSort rowKeyLeP (rows.filter fun r =>
    decide (r.list_date ≤ r.trade_date) && decide (r.trade_date < r.delist_date))

/-- Erase the generic label column, keeping every other field. -/
def eraseG (r : Row) : Row := { r with generic := "" }

/-- Build a merged row from contract id, family, trade date, delist date,
close, volume and open interest; the list date is 0. -/
def mkRow (ts : Nat) (fc : String) (td dd : Nat) (cl v o : ℚ) : Row :=
  { ts_code := ts, fut_code := fc, trade_date := td, list_date := 0,
    delist_date := dd, close := cl, vol := v, oi := o, generic := "" }

/-- The adjusted close of contract c on trading day d in an adjusted frame. -/
def adjPriceAt (l : List AdjRow) (c d : Nat) : Option ℚ :=
  (l.find? fun e => e.row.ts_code == c && e.row.trade_date == d).map AdjRow.adj_price

/-- A three-row history: on day 1 contract 1 (delist 10) is displaced by
contract 2 (delist 20, higher volume, later delist); on day 2 contract 2 has no
row (a data gap) and only contract 1 trades. -/
def c1df : List Row :=
  [ mkRow 1 "IF" 1 10 100 5 0, mkRow 2 "IF" 1 20 100 10 0, mkRow 1 "IF" 2 10 100 5 0 ]

/-- A single commodity trading day with contract 1 at open interest 100 and
contract 2 at open interest 200. -/
def c3df : List Row := [ mkRow 1 "P" 1 10 50 10 100, mkRow 2 "P" 1 20 60 10 200 ]

/-- A single trading day with two contracts, where the later-delisting one has
the higher volume. -/
def c10df : List Row := [ mkRow 1 "IF" 1 10 100 5 0, mkRow 2 "IF" 1 20 110 10 0 ]

/-- One index trading day with two contracts sharing the same delist date. -/
def c7df : List Row := [ mkRow 1 "IF" 1 10 100 5 0, mkRow 2 "IF" 1 10 110 6 0 ]

/-- One commodity trading day with two contracts tied on open interest. -/
def c7pdf : List Row := [ mkRow 4 "P" 1 10 50 5 100, mkRow 5 "P" 1 20 60 6 100 ]

/-- A three-contract history: contract 1 delists after day 1, contract 2 after
day 2, contract 3 (the far contract, close 300) survives; forced rolls happen
on days 2 and 3. -/
def c4df : List Row :=
  [ mkRow 1 "IF" 1 2 100 10 0, mkRow 2 "IF" 1 3 200 5 0, mkRow 3 "IF" 1 30 300 1 0,
    mkRow 2 "IF" 2 3 200 5 0, mkRow 3 "IF" 2 30 300 1 0,
    mkRow 3 "IF" 3 30 300 1 0 ]

/-- A history like c4df with other ids and prices: contract 13 (close 90) is
rescaled by 60/90 at the day-2 roll and its factor column is then overwritten
with 1.0 by the day-3 roll. -/
def c6df : List Row :=
  [ mkRow 11 "IF" 1 2 50 10 0, mkRow 12 "IF" 1 3 60 5 0, mkRow 13 "IF" 1 30 90 1 0,
    mkRow 12 "IF" 2 3 60 5 0, mkRow 13 "IF" 2 30 90 1 0,
    mkRow 13 "IF" 3 30 90 1 0 ]

/-- A two-roll history: contract 1 rolls to contract 2 on day 2 (factor
110/100) and contract 2 rolls to contract 3 on day 4 (factor 150/100); every
contract trades every day. -/
def c2df : List Row :=
  [ mkRow 1 "IF" 1 10 100 10 0, mkRow 2 "IF" 1 20 110 5 0, mkRow 3 "IF" 1 30 150 1 0,
    mkRow 1 "IF" 2 10 100 10 0, mkRow 2 "IF" 2 20 110 20 0, mkRow 3 "IF" 2 30 150 1 0,
    mkRow 1 "IF" 3 10 100 1 0, mkRow 2 "IF" 3 20 110 20 0, mkRow 3 "IF" 3 30 150 1 0,
    mkRow 1 "IF" 4 10 100 1 0, mkRow 2 "IF" 4 20 100 20 0, mkRow 3 "IF" 4 30 150 40 0,
    mkRow 1 "IF" 5 10 100 1 0, mkRow 2 "IF" 5 20 100 1 0, mkRow 3 "IF" 5 30 150 40 0 ]

/-- A single-roll history in which the outgoing contract 1 closes at 0 on the
roll day: the stored price_from at the day-2 roll boundary is zero. -/
def c5df : List Row :=
  [ mkRow 1 "IF" 1 10 100 10 0, mkRow 2 "IF" 1 20 110 5 0,
    mkRow 1 "IF" 2 10 0 10 0, mkRow 2 "IF" 2 20 120 20 0,
    mkRow 2 "IF" 3 20 130 20 0 ]

/-- Two equal two-day histories carrying different slot labels. -/
def c9dfA : List Row :=
  [ { mkRow 1 "IF" 1 10 100 5 0 with generic := "IFc1" },
    { mkRow 2 "IF" 1 20 110 10 0 with generic := "IFc2" },
    { mkRow 2 "IF" 2 20 110 10 0 with generic := "IFc1" } ]

/-- The same history as c9dfA with all labels renamed. -/
def c9dfB : List Row :=
  [ { mkRow 1 "IF" 1 10 100 5 0 with generic := "IFc3" },
    { mkRow 2 "IF" 1 20 110 10 0 with generic := "IFc1" },
    { mkRow 2 "IF" 2 20 110 10 0 with generic := "IFc2" } ]

/-- A two-day index history with pairwise distinct delist dates per day. -/
def c7wdf : List Row :=
  [ mkRow 1 "IF" 1 10 100 5 0, mkRow 2 "IF" 1 20 110 6 0,
    mkRow 1 "IF" 2 10 100 5 0, mkRow 2 "IF" 2 20 110 6 0 ]

/-- The immutable part of a working row: the underlying row and its flag. -/
def prRow (e : AdjRow) : Row × Bool := (e.row, e.roll)

/-- Apply a list of adjustment events to one working row: the adj_price column
collects the product of the factors of the events naming the row's contract,
and the factor column ends at the last such factor. -/
def applyEvs (evs : List (Nat × ℚ)) (e : AdjRow) : AdjRow :=
  { e with
    adj_price := e.adj_price * ((evs.filter fun v => v.1 == e.row.ts_code).map Prod.snd).prod,
    adj_fac := ((evs.filter fun v => v.1 == e.row.ts_code).map Prod.snd).getLastD e.adj_fac }

/-- A flat two-day single-contract frame with no roll flags. -/
def c4wdf : List (Row × Bool) :=
  [(mkRow 1 "IF" 1 10 100 5 0, false), (mkRow 1 "IF" 2 10 110 5 0, false)]

/-- A single-roll index history with symbolic close prices: contract 1 (delist
10, volume 10) trades days 1 and 2; contract 2 (delist 20, volume 5 then 20)
trades days 1, 2 and 3; on day 2 contract 2 overtakes on volume and delist
date, forcing exactly one roll, and both contracts trade on the roll day. -/
def oneRollDf (a1 b1 a2 b2 b3 : ℚ) : List Row :=
  [ mkRow 1 "IF" 1 10 a1 10 0, mkRow 2 "IF" 1 20 b1 5 0,
    mkRow 1 "IF" 2 10 a2 10 0, mkRow 2 "IF" 2 20 b2 20 0,
    mkRow 2 "IF" 3 20 b3 20 0 ]

/-- The labelled and flagged frame process_index_futures produces on
oneRollDf: one roll mark, on contract 2 at day 2. -/
def oneRollFlagged (a1 b1 a2 b2 b3 : ℚ) : List (Row × Bool) :=
  [ ({ mkRow 1 "IF" 1 10 a1 10 0 with generic := "IFc1" }, false),
    ({ mkRow 2 "IF" 1 20 b1 5 0 with generic := "IFc2" }, false),
    ({ mkRow 1 "IF" 2 10 a2 10 0 with generic := "IFc1" }, false),
    ({ mkRow 2 "IF" 2 20 b2 20 0 with generic := "IFc2" }, true),
    ({ mkRow 2 "IF" 3 20 b3 20 0 with generic := "IFc1" }, false) ]

/-- A single-roll history in which the outgoing contract 1 closes at cl on day
1 and at 0 on the day-2 roll day, so the stored price_from at the boundary is
zero. -/
def zeroFromDf (cl : ℚ) : List Row :=
  [ mkRow 1 "IF" 1 10 cl 10 0, mkRow 2 "IF" 1 20 110 5 0,
    mkRow 1 "IF" 2 10 0 10 0, mkRow 2 "IF" 2 20 120 20 0,
    mkRow 2 "IF" 3 20 130 20 0 ]

/-- The labelled and flagged frame process_index_futures produces on
zeroFromDf. -/
def zeroFromFlagged (cl : ℚ) : List (Row × Bool) :=
  [ ({ mkRow 1 "IF" 1 10 cl 10 0 with generic := "IFc1" }, false),
    ({ mkRow 2 "IF" 1 20 110 5 0 with generic := "IFc2" }, false),
    ({ mkRow 1 "IF" 2 10 0 10 0 with generic := "IFc1" }, false),
    ({ mkRow 2 "IF" 2 20 120 20 0 with generic := "IFc2" }, true),
    ({ mkRow 2 "IF" 3 20 130 20 0 with generic := "IFc1" }, false) ]

/-- C1: the claim (and the module docstring of the source, which states that a
rolled series can never roll back) says a displaced contract never reappears
and the incumbent ordinal never decreases.  Evaluating
calculate_rollover_dates on c1df, the incumbent chain is contract 1, then
contract 2 (delist date 20), then contract 1 (delist date 10) again: the
forced-roll branch taken when the incumbent has no row that day reassigns the
displaced contract 1 and the delist-date ordinal decreases from 20 to 10. -/
theorem c1_rollback_violation :
    rolloverChain c1df = [1, 2, 1] ∧
    rolloverFlags c1df = some [false, true, true] := by decide

/-- C3: the claim (and the source docstring) says Pv1 is the most active
contract.  Evaluating process_commodity_futures on c3df, the pandas rank is
ascending, so the label Pv1 goes to the contract with the smallest open
interest (100) and Pv2 to the largest (200): the ranking is ascending, not
descending. -/
theorem c3_least_active_gets_v1 :
    (process_commodity_futures c3df).map (List.map fun rb => (rb.1.ts_code, rb.1.oi, rb.1.generic))
      = some [(1, 100, "Pv1"), (2, 200, "Pv2")] := by decide

/-- C10 counterexample: the claim says no roll event is emitted for the
initialization day.  On c10df the initial incumbent is contract 1 (first row
after sorting), yet the loop already fires a roll to contract 2 on that same
first trading day, flagging rollover = 1 there. -/
theorem c10_roll_on_first_day :
    (calculate_rollover_dates c10df).map (List.map fun rb => (rb.1.ts_code, rb.1.trade_date, rb.2))
      = some [(1, 1, false), (2, 1, true)] := by decide

/-- C7 counterexample: the claim says each slot label holds at most one
contract and ties are broken by ascending contract id.  On c7df the method-min
rank gives both tied contracts rank 1, so both are labelled IFc1 on the same
day; on c7pdf the method-max rank gives both tied contracts rank 2, so both are
labelled Pv2 and the slot Pv1 is left empty although ranked contracts exist.
No contract-id tie-break exists anywhere. -/
theorem c7_tie_gives_two_contracts_one_slot :
    ((process_index_futures c7df).map (List.map fun rb => (rb.1.ts_code, rb.1.generic))
      = some [(1, "IFc1"), (2, "IFc1")]) ∧
    ((label_commodity c7pdf).map fun r => (r.ts_code, r.generic)) = [(4, "Pv2"), (5, "Pv2")] := by
  decide

/-- C8 counterexample: the claim says the selector does not raise even on an
input that is entirely empty for a family.  The source reads ts_code iloc 0
before the loop, which raises IndexError on an empty frame; the model returns
none there. -/
theorem c8_empty_input_errors : calculate_rollover_dates ([] : List Row) = none := by decide

/-- C4 counterexample: the claim says the most recent (currently active)
segment's adjusted prices equal its raw prices with factor 1.0.  On c4df the
final incumbent is contract 3, yet its whole segment (raw close 300) is
restated to 200: at the day-2 roll the row preceding the flagged row belongs to
contract 3, so the loop rescales contract 3 by 200/300, and the day-3 roll then
overwrites its factor column back to 1.0. -/
theorem c4_live_segment_restated :
    (rolloverChain c4df).getLast? = some 3 ∧
    ((adjust_close ((calculate_rollover_dates c4df).getD [])).filter fun e =>
        e.row.ts_code == 3).map (fun e => (e.row.close, e.adj_price, e.adj_fac))
      = [(300, 200, 1), (300, 200, 1), (300, 200, 1)] := by with_unfolding_all decide

/-- C6 counterexample: the claim says adjusted close = raw close times the
reported cumulative factor, the factor being the cumulative product of all
applied ricochets.  On c6df the output row of contract 13 on day 1 has raw
close 90, adjusted close 60 and reported factor 1.0: the factor column is
overwritten (not multiplied) at each roll, so the report misses the earlier
2/3 and 60 is not round1 (90 * 1). -/
theorem c6_reported_factor_wrong :
    ((adjust_close ((calculate_rollover_dates c6df).getD [])).map
        fun e => (e.row.ts_code, e.row.trade_date, e.row.close, e.adj_price, e.adj_fac))
      = [(11, 1, 50, 50, 1), (12, 1, 60, 60, 1), (13, 1, 90, 60, 1),
         (12, 2, 60, 60, 1), (13, 2, 90, 60, 1), (13, 3, 90, 60, 1)] ∧
    round1 ((90 : ℚ) * 1) = 90 ∧ ((60 : ℚ) ≠ 90) := by with_unfolding_all decide

/-- C2 counterexample: the claim says continuity holds at every roll boundary
even with two or more rolls, because older segments would carry the cumulative
product of all later factors.  On c2df the outgoing contract 1 is rescaled only
by its own boundary factor 110/100, while the incoming contract 2 is later
rescaled by 150/100; at the day-2 boundary the outgoing adjusted close is 110
and the incoming adjusted close is 165, a 55-point jump far beyond the 0.1
tolerance. -/
theorem c2_multi_roll_discontinuity :
    rolloverChain c2df = [1, 2, 3] ∧
    adjPriceAt (adjust_close ((process_index_futures c2df).getD [])) 1 2 = some 110 ∧
    adjPriceAt (adjust_close ((process_index_futures c2df).getD [])) 2 2 = some 165 ∧
    ¬ |(110 : ℚ) - 165| ≤ 1 / 10 := by with_unfolding_all decide

/-- C5 counterexample: the claim says a zero price_from leaves the affected
segment unadjusted (factor carried through unchanged) and flags the condition.
On c5df the adjuster divides by the stored zero close anyway: contract 1's
day-1 row (raw close 100) is rescaled to 0 with factor 0 in this rational
model (the float source produces an infinite quotient), no flag of any kind is
emitted, and the segment is certainly not left unadjusted. -/
theorem c5_zero_price_not_flagged :
    ((adjust_close ((process_index_futures c5df).getD [])).map
        fun e => (e.row.ts_code, e.row.trade_date, e.row.close, e.adj_price, e.adj_fac))
      = [(1, 1, 100, 0, 0), (2, 1, 110, 110, 1),
         (1, 2, 0, 0, 0), (2, 2, 120, 120, 1), (2, 3, 130, 130, 1)] := by with_unfolding_all decide

/-- C8 amended: for every non-empty input frame the rollover selector returns a
result (no exception); only the entirely empty frame hits the iloc IndexError.
Days with fewer qualifying contracts simply contribute fewer rows and do not
disturb the loop. -/
theorem c8_nonempty_returns (df : List Row) (h : df ≠ []) :
    (calculate_rollover_dates df).isSome = true := by
  have hlen : (sortRows df).length = df.length := List.length_insertionSort rowKeyLeP df
  cases hs : sortRows df with
  | nil =>
    exfalso
    rw [hs] at hlen
    exact h (List.length_eq_zero.mp hlen.symm)
  | cons a t =>
    simp [calculate_rollover_dates, rolloverMarks, hs]

/-- C8 witness: the one-row frame is accepted by c8_nonempty_returns. -/
theorem c8_nonempty_returns_witness :
    ([mkRow 1 "IF" 1 10 100 5 0] ≠ ([] : List Row)) ∧
      (calculate_rollover_dates [mkRow 1 "IF" 1 10 100 5 0]).isSome = true :=
  ⟨by decide, c8_nonempty_returns [mkRow 1 "IF" 1 10 100 5 0] (by decide)⟩

/-- C10 amended: the initial incumbent is the head of the frame sorted by
(trade_date, delist_date), a row minimal in that lexicographic key, hence the
soonest-to-delist contract of the earliest trading day for both family types;
no roll mark is produced by the initialization itself (the chain starts at that
row), though a roll may still fire later on the same first day. -/
theorem c10_first_sorted_row_is_incumbent (df : List Row) (h0 : Row) (t : List Row)
    (hs : sortRows df = h0 :: t) :
    (rolloverChain df).head? = some h0.ts_code ∧ ∀ r ∈ df, rowKeyLeP h0 r := by
  constructor
  · simp [rolloverChain, rolloverMarks, hs]
  · intro r hr
    have hsort : List.Sorted rowKeyLeP (sortRows df) := List.sorted_insertionSort rowKeyLeP df
    rw [hs] at hsort
    have hmem : r ∈ h0 :: t := by
      rw [← hs]
      exact ((List.perm_insertionSort rowKeyLeP df).mem_iff).mpr hr
    rcases List.mem_cons.mp hmem with h1 | h2
    · subst h1
      have : rowKeyLe r r = true := by simp [rowKeyLe]
      exact this
    · exact (List.sorted_cons.mp hsort).1 r h2

/-- C10 amended witness: on c10df the sorted head is the day-1 contract with
the earlier delist date, and it heads the incumbent chain. -/
theorem c10_first_sorted_row_is_incumbent_witness :
    (sortRows c10df = mkRow 1 "IF" 1 10 100 5 0 :: [mkRow 2 "IF" 1 20 110 10 0]) ∧
      ((rolloverChain c10df).head? = some (mkRow 1 "IF" 1 10 100 5 0).ts_code ∧
        ∀ r ∈ c10df, rowKeyLeP (mkRow 1 "IF" 1 10 100 5 0) r) :=
  ⟨by decide,
    c10_first_sorted_row_is_incumbent c10df (mkRow 1 "IF" 1 10 100 5 0)
      [mkRow 2 "IF" 1 20 110 10 0] (by decide)⟩

/-- Erasing the label leaves the sort key comparison unchanged. -/
theorem rowKeyLe_eraseG (a b : Row) : rowKeyLe (eraseG a) (eraseG b) = rowKeyLe a b := rfl

/-- Ordered insertion commutes with erasing the label column. -/
theorem orderedInsert_eraseG (x : Row) (l : List Row) :
    List.orderedInsert rowKeyLeP (eraseG x) (l.map eraseG)
      = (List.orderedInsert rowKeyLeP x l).map eraseG := by
  induction l with
  | nil => rfl
  | cons y ys ih =>
    simp only [List.map_cons, List.orderedInsert]
    by_cases h : rowKeyLeP x y
    · rw [if_pos h, if_pos (show rowKeyLeP (eraseG x) (eraseG y) from h)]
      rfl
    · rw [if_neg h, if_neg (show ¬ rowKeyLeP (eraseG x) (eraseG y) from h), ih]
      rfl

/-- Sorting the frame commutes with erasing the label column. -/
theorem sortRows_eraseG (df : List Row) :
    sortRows (df.map eraseG) = (sortRows df).map eraseG := by
  induction df with
  | nil => rfl
  | cons x xs ih =>
    simp only [sortRows, List.map_cons, List.insertionSort] at *
    rw [ih, orderedInsert_eraseG]

/-- Filtering a day group commutes with erasing the label column. -/
theorem filter_day_eraseG (l : List Row) (d : Nat) :
    (l.map eraseG).filter (fun x => x.trade_date == d)
      = (l.filter fun x => x.trade_date == d).map eraseG := by
  rw [List.filter_map]
  rfl

/-- Filtering by contract id commutes with erasing the label column. -/
theorem filter_ts_eraseG (l : List Row) (c : Nat) :
    (l.map eraseG).filter (fun x => x.ts_code == c)
      = (l.filter fun x => x.ts_code == c).map eraseG := by
  rw [List.filter_map]
  rfl

/-- Mapping preserves emptiness of a list. -/
theorem isEmpty_map (f : Row → Row) (l : List Row) : (l.map f).isEmpty = l.isEmpty := by
  cases l with
  | nil => rfl
  | cons a t => rfl

/-- The descending volume insertion commutes with erasing the label column. -/
theorem orderedInsertVol_eraseG (x : Row) (l : List Row) :
    List.orderedInsert volGeP (eraseG x) (l.map eraseG)
      = (List.orderedInsert volGeP x l).map eraseG := by
  induction l with
  | nil => rfl
  | cons y ys ih =>
    simp only [List.map_cons, List.orderedInsert]
    by_cases h : volGeP x y
    · rw [if_pos h, if_pos (show volGeP (eraseG x) (eraseG y) from h)]
      rfl
    · rw [if_neg h, if_neg (show ¬ volGeP (eraseG x) (eraseG y) from h), ih]
      rfl

/-- The descending volume sort commutes with erasing the label column. -/
theorem sortVolDesc_eraseG (l : List Row) :
    sortVolDesc (l.map eraseG) = (sortVolDesc l).map eraseG := by
  induction l with
  | nil => rfl
  | cons x xs ih =>
    simp only [sortVolDesc, List.map_cons, List.insertionSort] at *
    rw [ih, orderedInsertVol_eraseG]

/-- One rollover iteration never reads the label column: erasing it leaves the
updated incumbent and the produced mark unchanged. -/
theorem rollStep_eraseG (all : List Row) (cur : Nat) (r : Row) :
    rollStep (all.map eraseG) cur (eraseG r) = rollStep all cur r := by
  simp only [rollStep]
  rw [show (eraseG r).trade_date = r.trade_date from rfl]
  rw [filter_day_eraseG, filter_ts_eraseG, isEmpty_map]
  by_cases hE : ((all.filter fun x => x.trade_date == r.trade_date).filter
      fun x => x.ts_code == cur).isEmpty = true
  · rw [if_pos hE, if_pos hE, sortVolDesc_eraseG, List.head?_map]
    cases (sortVolDesc (all.filter fun x => x.trade_date == r.trade_date)).head? with
    | none => rfl
    | some nxt => rfl
  · rw [if_neg hE, if_neg hE, List.head?_map]
    cases hc : ((all.filter fun x => x.trade_date == r.trade_date).filter
        fun x => x.ts_code == cur).head? with
    | none => rfl
    | some c =>
      simp only [Option.map_some']
      have hrcs : ((all.filter fun x => x.trade_date == r.trade_date).map eraseG).filter
          (fun x => decide ((eraseG c).vol < x.vol) && decide ((eraseG c).delist_date < x.delist_date))
          = ((all.filter fun x => x.trade_date == r.trade_date).filter
              fun x => decide (c.vol < x.vol) && decide (c.delist_date < x.delist_date)).map eraseG := by
        rw [List.filter_map]
        rfl
      rw [hrcs, sortVolDesc_eraseG, List.head?_map]
      cases (sortVolDesc ((all.filter fun x => x.trade_date == r.trade_date).filter
          fun x => decide (c.vol < x.vol) && decide (c.delist_date < x.delist_date))).head? with
      | none => rfl
      | some top => rfl

/-- The rollover loop never reads the label column. -/
theorem rollFold_eraseG (all : List Row) (cur : Nat) (rows : List Row) :
    rollFold (all.map eraseG) cur (rows.map eraseG) = rollFold all cur rows := by
  induction rows generalizing cur with
  | nil => rfl
  | cons r rest ih =>
    simp only [List.map_cons, rollFold, rollStep_eraseG, ih]

/-- The incumbent initialization and the marks never read the label column. -/
theorem rolloverMarks_eraseG (df : List Row) :
    rolloverMarks (df.map eraseG) = rolloverMarks df := by
  unfold rolloverMarks
  rw [sortRows_eraseG]
  cases hs : sortRows df with
  | nil => rfl
  | cons r0 rest =>
    simp only [List.map_cons]
    have : rollFold (eraseG r0 :: rest.map eraseG) (eraseG r0).ts_code (rest.map eraseG)
        = rollFold (r0 :: rest) r0.ts_code rest := by
      have := rollFold_eraseG (r0 :: rest) r0.ts_code rest
      simpa using this
    rw [this]
    rfl

/-- The incumbent chain never reads the label column. -/
theorem rolloverChain_eraseG (df : List Row) :
    rolloverChain (df.map eraseG) = rolloverChain df := by
  unfold rolloverChain
  rw [rolloverMarks_eraseG]

/-- The flag column never reads the label column. -/
theorem rolloverFlags_eraseG (df : List Row) :
    rolloverFlags (df.map eraseG) = rolloverFlags df := by
  unfold rolloverFlags calculate_rollover_dates
  rw [rolloverMarks_eraseG, sortRows_eraseG]
  cases rolloverMarks df with
  | none => rfl
  | some cm =>
    simp only [Option.map_some', List.map_map]
    rfl

/-- C9: rollover detection keeps one incumbent state for the whole family and
never reads the generic slot-label column: two inputs that agree after erasing
the label column produce identical rollover flags and an identical single
family-wide incumbent chain, so slots 2 and 3 never carry incumbents or roll
events of their own. -/
theorem c9_flags_independent_of_labels (df1 df2 : List Row)
    (h : df1.map eraseG = df2.map eraseG) :
    rolloverFlags df1 = rolloverFlags df2 ∧ rolloverChain df1 = rolloverChain df2 := by
  constructor
  · rw [← rolloverFlags_eraseG df1, h, rolloverFlags_eraseG df2]
  · rw [← rolloverChain_eraseG df1, h, rolloverChain_eraseG df2]

/-- C9 witness: c9dfA and c9dfB differ only in labels, and the theorem yields
identical flags and chains. -/
theorem c9_flags_independent_of_labels_witness :
    (c9dfA.map eraseG = c9dfB.map eraseG) ∧
      (rolloverFlags c9dfA = rolloverFlags c9dfB ∧ rolloverChain c9dfA = rolloverChain c9dfB) :=
  ⟨by decide, c9_flags_independent_of_labels c9dfA c9dfB (by decide)⟩

/-- Filtering with a weaker predicate keeps at least as many rows. -/
theorem length_filter_le_of_imp (p q : Row → Bool) (l : List Row)
    (h : ∀ x ∈ l, p x = true → q x = true) :
    (l.filter p).length ≤ (l.filter q).length := by
  induction l with
  | nil => simp
  | cons a t ih =>
    have ht : ∀ x ∈ t, p x = true → q x = true :=
      fun x hx => h x (List.mem_cons_of_mem a hx)
    cases hp : p a with
    | true =>
      have hq := h a (List.mem_cons_self a t) hp
      simp only [List.filter_cons, hp, hq, if_pos, List.length_cons]
      exact Nat.succ_le_succ (ih ht)
    | false =>
      cases hq : q a with
      | true =>
        simp only [List.filter_cons, hp, hq]
        simp only [Bool.false_eq_true, if_false, if_pos, List.length_cons]
        exact Nat.le_succ_of_le (ih ht)
      | false =>
        simp only [List.filter_cons, hp, hq]
        simp only [Bool.false_eq_true, if_false]
        exact ih ht

/-- Filtering with a strictly weaker predicate, witnessed inside the list,
keeps strictly more rows. -/
theorem length_filter_lt_of_witness (p q : Row → Bool) (l : List Row)
    (h : ∀ x ∈ l, p x = true → q x = true) (w : Row) (hw : w ∈ l)
    (hqw : q w = true) (hpw : p w = false) :
    (l.filter p).length < (l.filter q).length := by
  induction l with
  | nil => cases hw
  | cons a t ih =>
    have ht : ∀ x ∈ t, p x = true → q x = true :=
      fun x hx => h x (List.mem_cons_of_mem a hx)
    rcases List.mem_cons.mp hw with rfl | hwt
    · simp only [List.filter_cons, hpw, hqw, if_pos, Bool.false_eq_true, if_false,
        List.length_cons]
      exact Nat.lt_succ_of_le (length_filter_le_of_imp p q t ht)
    · cases hp : p a with
      | true =>
        have hq := h a (List.mem_cons_self a t) hp
        simp only [List.filter_cons, hp, hq, if_pos, List.length_cons]
        exact Nat.succ_lt_succ (ih ht hwt)
      | false =>
        cases hq : q a with
        | true =>
          simp only [List.filter_cons, hp, hq, if_pos, Bool.false_eq_true, if_false,
            List.length_cons]
          exact Nat.lt_succ_of_lt (ih ht hwt)
        | false =>
          simp only [List.filter_cons, hp, hq, Bool.false_eq_true, if_false]
          exact ih ht hwt

/-- The method-min expiry rank is strictly monotone in the delist date over a
day group, provided the smaller row belongs to the group. -/
theorem expiry_rank_strict_mono (day : List Row) (r1 r2 : Row) (h1 : r1 ∈ day)
    (hd : r1.delist_date < r2.delist_date) :
    expiry_rank day r1 < expiry_rank day r2 := by
  have key := length_filter_lt_of_witness
    (fun x => decide (x.delist_date < r1.delist_date))
    (fun x => decide (x.delist_date < r2.delist_date)) day
    (by
      intro x _ hx
      simp only [decide_eq_true_eq] at *
      omega)
    r1 h1 (by simpa using hd) (by simp)
  unfold expiry_rank
  omega

/-- The label map of the index family is injective on defined ranks. -/
theorem genericIF_inj (m n : Nat) (s : String) (hm : genericIF m = some s)
    (hn : genericIF n = some s) : m = n := by
  unfold genericIF at hm hn
  split at hm <;> split at hn <;>
    first
      | rfl
      | (exact Option.noConfusion hm)
      | (exact Option.noConfusion hn)
      | (injection hm with hm1
         injection hn with hn1
         subst hm1
         exact absurd hn1 (by decide))

/-- C7 amended: the source has no contract-id tie-break at all; instead, when
all delist dates inside each index day group are pairwise distinct, the
method-min rank is injective, so each (day, generic label) pair is carried by
at most one row of the labelled index frame.  Ties do break the claim: they
make two contracts share a slot (IF) or leave a slot empty (P), as the
counterexample shows. -/
theorem c7_distinct_delists_unique_slot (futures : List Row)
    (hdist : ∀ r1 ∈ futures.filter (fun r => r.fut_code == "IF"),
             ∀ r2 ∈ futures.filter (fun r => r.fut_code == "IF"),
             r1.trade_date = r2.trade_date → r1.delist_date = r2.delist_date → r1 = r2) :
    ∀ a ∈ label_index futures, ∀ b ∈ label_index futures,
      a.trade_date = b.trade_date → a.generic = b.generic → a = b := by
  intro a ha b hb hdate hgen
  unfold label_index at ha hb
  obtain ⟨ra, hra, hfa⟩ := List.mem_filterMap.mp ha
  obtain ⟨rb, hrb, hfb⟩ := List.mem_filterMap.mp hb
  obtain ⟨ga, hga, hae⟩ := Option.map_eq_some'.mp hfa
  obtain ⟨gb, hgb, hbe⟩ := Option.map_eq_some'.mp hfb
  have hadate : a.trade_date = ra.trade_date := by rw [← hae]
  have hbdate : b.trade_date = rb.trade_date := by rw [← hbe]
  have hrdate : ra.trade_date = rb.trade_date := by rw [← hadate, ← hbdate, hdate]
  have hagen : a.generic = ga := by rw [← hae]
  have hbgen : b.generic = gb := by rw [← hbe]
  have hg : ga = gb := by rw [← hagen, ← hbgen, hgen]
  have hsame : sameDay (futures.filter fun r => r.fut_code == "IF") ra
      = sameDay (futures.filter fun r => r.fut_code == "IF") rb := by
    unfold sameDay
    rw [hrdate]
  have hrank : expiry_rank (sameDay (futures.filter fun r => r.fut_code == "IF") ra) ra
      = expiry_rank (sameDay (futures.filter fun r => r.fut_code == "IF") ra) rb := by
    apply genericIF_inj _ _ ga hga
    rw [hg, hsame]
    exact hgb
  have hmema : ra ∈ sameDay (futures.filter fun r => r.fut_code == "IF") ra := by
    unfold sameDay
    rw [List.mem_filter]
    exact ⟨hra, by simp⟩
  have hmemb : rb ∈ sameDay (futures.filter fun r => r.fut_code == "IF") ra := by
    unfold sameDay
    rw [List.mem_filter]
    exact ⟨hrb, by simp [hrdate]⟩
  have hdd : ra.delist_date = rb.delist_date := by
    rcases Nat.lt_trichotomy ra.delist_date rb.delist_date with hlt | heq | hgt
    · exact absurd hrank
        (Nat.ne_of_lt (expiry_rank_strict_mono _ ra rb hmema hlt))
    · exact heq
    · exact absurd hrank.symm
        (Nat.ne_of_lt (expiry_rank_strict_mono _ rb ra hmemb hgt))
  have hr : ra = rb := hdist ra hra rb hrb hrdate hdd
  rw [← hae, ← hbe, hr, hg]

/-- C7 amended witness: on c7wdf the distinctness hypothesis holds and every
(day, label) pair of the labelled frame carries a single row. -/
theorem c7_distinct_delists_unique_slot_witness :
    (∀ r1 ∈ c7wdf.filter (fun r => r.fut_code == "IF"),
      ∀ r2 ∈ c7wdf.filter (fun r => r.fut_code == "IF"),
      r1.trade_date = r2.trade_date → r1.delist_date = r2.delist_date → r1 = r2) ∧
    (∀ a ∈ label_index c7wdf, ∀ b ∈ label_index c7wdf,
      a.trade_date = b.trade_date → a.generic = b.generic → a = b) :=
  ⟨by decide, c7_distinct_delists_unique_slot c7wdf (by decide)⟩

/-- The first projection of a working row after prRow. -/
theorem prRow_row (e : AdjRow) : (prRow e).1 = e.row := rfl

/-- The second projection of a working row after prRow. -/
theorem prRow_roll (e : AdjRow) : (prRow e).2 = e.roll := rfl

/-- Applying no events changes nothing. -/
theorem applyEvs_nil (e : AdjRow) : applyEvs [] e = e := by
  cases e with
  | mk row roll ap af => simp [applyEvs]

/-- The loc-mask update keeps the row and flag. -/
theorem prRow_updFac (p : Nat) (q : ℚ) (x : AdjRow) : prRow (updFac p q x) = prRow x := by
  unfold updFac
  split <;> rfl

/-- The loc-mask update keeps the row-and-flag sequence of the whole frame. -/
theorem map_prRow_updFac (p : Nat) (q : ℚ) (s : List AdjRow) :
    (s.map (updFac p q)).map prRow = s.map prRow := by
  rw [List.map_map]
  exact List.map_congr_left fun a _ => prRow_updFac p q a

/-- Consuming the first event equals applying its loc-mask update first. -/
theorem applyEvs_cons (p : Nat) (q : ℚ) (evs : List (Nat × ℚ)) (x : AdjRow) :
    applyEvs ((p, q) :: evs) x = applyEvs evs (updFac p q x) := by
  by_cases h : x.row.ts_code = p
  · have hb : (p == x.row.ts_code) = true := by simp [h]
    cases x with
    | mk row roll ap af =>
      simp only at h
      simp only [applyEvs, updFac, List.filter_cons] at *
      simp only [hb, if_pos, List.map_cons, List.prod_cons, List.getLastD_cons, if_pos h]
      rw [← mul_assoc]
  · have hb : (p == x.row.ts_code) = false := by
      simp only [beq_eq_false_iff_ne, ne_eq]
      exact fun hpe => h hpe.symm
    cases x with
    | mk row roll ap af =>
      simp only at h
      simp only [applyEvs, updFac, List.filter_cons] at *
      simp only [hb, Bool.false_eq_true, if_false, if_neg h]

/-- The loop of adjust_close equals applying, to every working row, the events
read off the row-and-flag sequence from the current index on, provided the
fuel covers the remaining rows. -/
theorem adjustGoAux_spec (fuel : Nat) :
    ∀ (s : List AdjRow) (closing : Nat → ℚ) (last : Option Nat) (i : Nat),
      s.length ≤ i + fuel →
      adjustGoAux closing last s i fuel
        = s.map (applyEvs (eventsGo closing last ((s.map prRow).drop i))) := by
  induction fuel with
  | zero =>
    intro s closing last i hle
    have hdrop : (s.map prRow).drop i = [] :=
      List.drop_eq_nil_of_le (by simpa using hle)
    rw [hdrop]
    calc adjustGoAux closing last s i 0 = s := rfl
      _ = s.map id := (List.map_id s).symm
      _ = s.map (applyEvs (eventsGo closing last [])) :=
        List.map_congr_left fun a _ => (applyEvs_nil a).symm
  | succ fuel ih =>
    intro s closing last i hle
    cases hgi : s[i]? with
    | none =>
      have hlen : s.length ≤ i := List.getElem?_eq_none_iff.mp hgi
      have hdrop : (s.map prRow).drop i = [] :=
        List.drop_eq_nil_of_le (by simpa using hlen)
      rw [hdrop]
      have hstep : adjustGoAux closing last s i (fuel + 1) = s := by
        simp only [adjustGoAux, hgi]
      rw [hstep]
      calc s = s.map id := (List.map_id s).symm
        _ = s.map (applyEvs (eventsGo closing last [])) :=
          List.map_congr_left fun a _ => (applyEvs_nil a).symm
    | some e =>
      have hi : i < s.length := by
        rcases List.getElem?_eq_some.mp hgi with ⟨h, _⟩
        exact h
      have hi' : i < (s.map prRow).length := by simpa using hi
      have hdrop : (s.map prRow).drop i = prRow e :: (s.map prRow).drop (i + 1) := by
        rw [List.drop_eq_getElem_cons hi']
        have hg2 : (s.map prRow)[i]? = some (prRow e) := by
          rw [List.getElem?_map, hgi]
          rfl
        have hg3 := List.getElem?_eq_getElem hi'
        rw [hg2] at hg3
        rw [← Option.some_inj.mp hg3]
      rw [hdrop]
      cases last with
      | none =>
        have hle2 : s.length ≤ (i + 1) + fuel := by omega
        simp only [adjustGoAux, hgi, eventsGo, prRow_row, prRow_roll]
        rw [ih s _ (some e.row.ts_code) (i + 1) hle2]
      | some p =>
        cases hroll : e.roll with
        | false =>
          have hle2 : s.length ≤ (i + 1) + fuel := by omega
          simp only [adjustGoAux, hgi, eventsGo, prRow_row, prRow_roll, hroll]
          rw [ih s _ (some e.row.ts_code) (i + 1) hle2]
        | true =>
          have hle2 : (s.map (updFac p (e.row.close /
              if p = e.row.ts_code then e.row.close else closing p))).length
              ≤ (i + 1) + fuel := by
            rw [List.length_map]
            omega
          simp only [adjustGoAux, hgi, eventsGo, prRow_row, prRow_roll, hroll]
          rw [ih _ _ (some e.row.ts_code) (i + 1) hle2]
          rw [map_prRow_updFac]
          rw [List.map_map]
          exact List.map_congr_left fun a _ => (applyEvs_cons _ _ _ a).symm

/-- FutureData.adjust_close computed in closed form: every output row carries
round1 of its raw close times the cumulative product of the factors applied to
its contract, and the factor column reports only the last applied factor,
rounded to one decimal as well. -/
theorem adjust_close_spec (df : List (Row × Bool)) :
    adjust_close df = df.map fun rb =>
      AdjRow.mk rb.1 rb.2 (round1 (rb.1.close * prodFac df rb.1.ts_code))
        (round1 (lastFac df rb.1.ts_code)) := by
  unfold adjust_close
  rw [adjustGoAux_spec df.length _ _ none 0 (by simp)]
  have hpr : ((df.map fun rb => AdjRow.mk rb.1 rb.2 rb.1.close 1).map prRow) = df := by
    rw [List.map_map]
    calc df.map (prRow ∘ fun rb => AdjRow.mk rb.1 rb.2 rb.1.close 1)
        = df.map id := List.map_congr_left fun a _ => rfl
      _ = df := List.map_id df
  rw [hpr, List.drop_zero]
  rw [List.map_map, List.map_map]
  exact List.map_congr_left fun rb _ => rfl

/-- C6 amended: for every input frame and every output row of adjust_close,
adjusted close equals round1 of raw close times the cumulative product of the
factors actually applied to that row's contract; the reported factor column is
only the last applied factor, rounded to one decimal like the adjusted close
(not exempt from rounding), because each roll overwrites the column instead of
multiplying into it; and each boundary's factor reaches only the previous-row
contract, not every prior segment. -/
theorem c6_adjusted_eq_raw_times_applied (df : List (Row × Bool)) :
    adjust_close df = df.map fun rb =>
      AdjRow.mk rb.1 rb.2 (round1 (rb.1.close * prodFac df rb.1.ts_code))
        (round1 (lastFac df rb.1.ts_code)) :=
  adjust_close_spec df

/-- C4 amended: a contract that never occupies the previous-row position at a
flagged roll keeps its raw closes (rounded to one decimal) and reports factor
1.0; the currently active contract enjoys no such protection in general, as
the counterexample shows. -/
theorem c4_untouched_contract_keeps_raw (df : List (Row × Bool)) (c : Nat)
    (h : ∀ v ∈ eventList df, v.1 ≠ c) :
    ∀ a ∈ adjust_close df, a.row.ts_code = c →
      a.adj_price = round1 a.row.close ∧ a.adj_fac = 1 := by
  intro a ha hc
  rw [adjust_close_spec] at ha
  obtain ⟨rb, hrb, heq⟩ := List.mem_map.mp ha
  have hts : rb.1.ts_code = c := by
    rw [← heq] at hc
    exact hc
  have hfil : (eventList df).filter (fun v => v.1 == rb.1.ts_code) = [] := by
    rw [List.filter_eq_nil_iff]
    intro v hv
    simp only [beq_iff_eq]
    rw [hts]
    exact h v hv
  constructor
  · rw [← heq]
    show round1 (rb.1.close * prodFac df rb.1.ts_code) = round1 (rb.1.close)
    unfold prodFac facsOf
    rw [hfil]
    simp
  · rw [← heq]
    show round1 (lastFac df rb.1.ts_code) = 1
    unfold lastFac facsOf
    rw [hfil]
    show round1 1 = 1
    with_unfolding_all decide

/-- C4 amended witness: c4wdf has no adjustment events at all, so contract 1
keeps its raw closes and factor 1.0. -/
theorem c4_untouched_contract_keeps_raw_witness :
    (∀ v ∈ eventList c4wdf, v.1 ≠ 1) ∧
      (∀ a ∈ adjust_close c4wdf, a.row.ts_code = 1 →
        a.adj_price = round1 a.row.close ∧ a.adj_fac = 1) :=
  ⟨by decide, c4_untouched_contract_keeps_raw c4wdf 1 (by decide)⟩

set_option maxHeartbeats 4000000 in
/-- C2 amended: for a single-roll history in which the outgoing contract
trades on the roll day (shape oneRollDf, arbitrary prices, nonzero outgoing
close), the outgoing contract's adjusted close on the roll day equals the
incoming contract's adjusted close on the same day exactly (both are round1 of
the incoming close), hence within the 0.1 tolerance; continuity at a boundary
holds only when no later roll rescales the incoming segment, as the two-roll
counterexample shows. -/
theorem c2_single_roll_continuity (a1 b1 a2 b2 b3 : ℚ) (ha : a2 ≠ 0) :
    process_index_futures (oneRollDf a1 b1 a2 b2 b3) = some (oneRollFlagged a1 b1 a2 b2 b3) ∧
    adjPriceAt (adjust_close (oneRollFlagged a1 b1 a2 b2 b3)) 1 2 = some (round1 b2) ∧
    adjPriceAt (adjust_close (oneRollFlagged a1 b1 a2 b2 b3)) 2 2 = some (round1 b2) := by
  refine ⟨rfl, ?_, ?_⟩
  · have h1 : adjPriceAt (adjust_close (oneRollFlagged a1 b1 a2 b2 b3)) 1 2
        = some (round1 (a2 * (b2 / a2))) := rfl
    rw [h1]
    have h2 : a2 * (b2 / a2) = b2 := by field_simp
    rw [h2]
  · exact rfl

/-- C2 amended witness: the single-roll shape at concrete prices. -/
theorem c2_single_roll_continuity_witness :
    ((100 : ℚ) ≠ 0) ∧
      (process_index_futures (oneRollDf 100 110 100 110 112)
          = some (oneRollFlagged 100 110 100 110 112) ∧
        adjPriceAt (adjust_close (oneRollFlagged 100 110 100 110 112)) 1 2
          = some (round1 110) ∧
        adjPriceAt (adjust_close (oneRollFlagged 100 110 100 110 112)) 2 2
          = some (round1 110)) :=
  ⟨by norm_num, c2_single_roll_continuity 100 110 100 110 112 (by norm_num)⟩

set_option maxHeartbeats 4000000 in
/-- C5 amended: the adjuster checks nothing before dividing: at a boundary
with stored price_from = 0 it still emits the event with factor
price_to / 0 and rescales the outgoing segment by it, whatever the raw close
was; in this rational model the quotient is 0 (the float source produces an
infinity), so the outgoing segment's adjusted closes become 0 rather than
staying raw, and no flag of any kind exists in the output. -/
theorem c5_ratio_applied_unconditionally (cl : ℚ) :
    process_index_futures (zeroFromDf cl) = some (zeroFromFlagged cl) ∧
      eventList (zeroFromFlagged cl) = [(1, (120 : ℚ) / 0)] ∧
      adjPriceAt (adjust_close (zeroFromFlagged cl)) 1 1
        = some (round1 (cl * ((120 : ℚ) / 0))) ∧
      adjPriceAt (adjust_close (zeroFromFlagged cl)) 1 1 = some 0 := by
  refine ⟨rfl, rfl, rfl, ?_⟩
  have h1 : adjPriceAt (adjust_close (zeroFromFlagged cl)) 1 1
      = some (round1 (cl * ((120 : ℚ) / 0))) := rfl
  rw [h1, div_zero, mul_zero]
  have h0 : round1 0 = 0 := by with_unfolding_all decide
  rw [h0]
